import Mathlib

/-!
Verification of the termle repository (a terminal Wordle clone).

The development shallowly embeds the two Go source files:
  * `src/unnamed/part_000` — the full game (`game` struct, two-pass guess
    evaluation with the duplicate-letter frequency rule, hard-mode hint
    checking, line-scanning answer lookup, `daysSinceFirstWordle`);
  * `src/termle.go` — the earlier variant (`board.addGuess` single-pass
    colouring, byte-seeking answer lookup, `currentDay`).

Strings are modelled as `List Char` (the words involved are ASCII), Go `int`
as `Int`, Go maps `rune → int` as functions `Char → Int` (missing key ↦ 0),
and the Go `map[rune]bool` / `map[string]struct\x7b\x7d` sets as lists with
membership.  Times are modelled exactly (the float arithmetic in the Go code
is exact on the inputs considered: differences of whole seconds).
-/

/-- Colour classification of one board cell, as in spec §3:
`correct` = green, `present` = yellow, `absent` = black. -/
inductive EvalColor where
  | correct
  | present
  | absent
deriving DecidableEq, Repr

/-- ASCII uppercase mapping of one character, modelling `strings.ToUpper`
on the ASCII strings this program handles. -/
def toUpperChar (c : Char) : Char :=
  if 'a' ≤ c ∧ c ≤ 'z' then Char.ofNat (c.toNat - 32) else c

/-- Whitespace predicate for `strings.TrimSpace` (ASCII portion). -/
def isSpaceChar (c : Char) : Bool :=
  c = ' ' ∨ c = '\t' ∨ c = '\n' ∨ c = '\x0d' ∨ c = '\x0b' ∨ c = '\x0c'

/-- Model of `strings.TrimSpace`, on ASCII whitespace. -/
def trimSpace (s : List Char) : List Char :=
  ((s.dropWhile isSpaceChar).reverse.dropWhile isSpaceChar).reverse

/-- Decrement one letter's remaining count, modelling `freq[r]--` on the
Go `map[rune]int` in `game.addGuess` (part_000 lines 199–218). -/
def decr (freq : Char → Int) (c : Char) : Char → Int :=
  fun d => if d = c then freq d - 1 else freq d

/-- The initial frequency map of `game.addGuess` (part_000 lines 199–202):
`for _, r := range g.answer \x7b freq[r]++ \x7d`. -/
def initFreq (answer : List Char) : Char → Int :=
  fun c => (answer.count c : Int)

/-- Pass 1 of `game.addGuess` (part_000 lines 203–210), restricted to its
effect on `freq`: for each position with `g.answer[i] == r` the letter's
count is decremented (the cell is coloured green there; `pass2` below
reproduces that colouring from the same condition). -/
def pass1 : List Char → List Char → (Char → Int) → (Char → Int)
  | g :: gs, a :: as, freq =>
      if g = a then pass1 gs as (decr freq g) else pass1 gs as freq
  | _, _, freq => freq

/-- Pass 2 of `game.addGuess` (part_000 lines 211–219) together with the
green colouring of pass 1: position `i` is `correct` when
`guess[i] == answer[i]`; otherwise it is `present` when the letter occurs
in the answer and `freq[r] > 0` (decrementing `freq[r]`); otherwise the
cell keeps its black colour, i.e. `absent`. -/
def pass2 (answer : List Char) : List Char → List Char → (Char → Int) → List EvalColor
  | g :: gs, a :: as, freq =>
      if g = a then EvalColor.correct :: pass2 answer gs as freq
      else if answer.contains g ∧ 0 < freq g then
        EvalColor.present :: pass2 answer gs as (decr freq g)
      else EvalColor.absent :: pass2 answer gs as freq
  | _, _, _ => []

/-- The guess evaluation computed by `game.addGuess` (part_000 lines
192–219): frequency map of the answer, then pass 1 (greens consume the
budget), then pass 2 (yellows consume what remains). -/
def evaluate (guess answer : List Char) : List EvalColor :=
  pass2 answer guess answer (pass1 guess answer (initFreq answer))

namespace TermleGo

/-- The cell colouring of `board.addGuess` in `src/termle.go` lines
110–120: green when the letters match by index, otherwise yellow whenever
the letter occurs anywhere in the answer (no frequency budget), otherwise
black. -/
def addGuessRow (answer : List Char) : List Char → List Char → List EvalColor
  | g :: gs, a :: as =>
      (if g = a then EvalColor.correct
       else if answer.contains g then EvalColor.present
       else EvalColor.absent) :: addGuessRow answer gs as
  | _, _ => []

/-- The row of colours `board.addGuess` writes for a guess. -/
def evalRow (guess answer : List Char) : List EvalColor :=
  addGuessRow answer guess answer

end TermleGo

/-- Number of positions where guess and answer agree and carry letter `c`
(the positions `game.addGuess` colours green for letter `c`). -/
def matchCount : List Char → List Char → Char → Nat
  | g :: gs, a :: as, c =>
      (if g = a ∧ g = c then 1 else 0) + matchCount gs as c
  | _, _, _ => 0

/-- Number of positions whose guess letter is `c` and whose evaluation is
the colour `col`. -/
def colorCount : List Char → List EvalColor → EvalColor → Char → Nat
  | g :: gs, e :: es, col, c =>
      (if g = c ∧ e = col then 1 else 0) + colorCount gs es col c
  | _, _, _, _ => 0

/-- Function `daysSinceFirstWordle` (part_000 lines 293–297): the local date's UTC
midnight minus `firstDay` (2021-06-19T00:00:00Z), in hours, divided by 24
and truncated by Go's float→int conversion.  The date is modelled by its
exact whole-day offset `d` from `firstDay`, so the hour difference is
`24 * d` exactly and the truncation is `Int.tdiv`. -/
def daysSinceFirstWordle (d : Int) : Int :=
  (24 * d).tdiv 24

namespace TermleGo

/-- Function `currentDay` (termle.go lines 179–181): `time.Now().UTC()` minus
`firstDay`, in hours, divided by 24, truncated, minus 1.  The current
instant is modelled by `s`, its whole-second offset from `firstDay`
(sessions run after `firstDay`, so `s : Nat`); hours/24 = `s / 86400`
truncated. -/
def currentDay (s : Nat) : Int :=
  ((s / 86400 : Nat) : Int) - 1

/-- Function `answerForDay` (termle.go lines 161–177): seek to byte offset
`day * 7` in the embedded answers file, read 5 bytes, uppercase them. -/
def answerForDay (file : List Char) (day : Nat) : List Char :=
  ((file.drop (day * 7)).take 5).map toUpperChar

end TermleGo

/-- Strip one trailing carriage return, as `dropCR` inside Go's
`bufio.ScanLines` split function does. -/
def dropCR (l : List Char) : List Char :=
  if l.getLast? = some '\x0d' then l.dropLast else l

/-- The token stream of `bufio.Scanner` with the default `ScanLines`
split: cut at each newline, drop a carriage return directly before it,
and emit a final token for trailing data without a newline. -/
def splitLinesAux : List Char → List Char → List (List Char)
  | acc, [] => if acc.isEmpty then [] else [dropCR acc.reverse]
  | acc, c :: cs =>
      if c = '\n' then dropCR acc.reverse :: splitLinesAux [] cs
      else splitLinesAux (c :: acc) cs

/-- All tokens `bufio.Scanner` produces for a file's contents. -/
def splitLines (file : List Char) : List (List Char) :=
  splitLinesAux [] file

/-- Value of `s.Text()` after `k` calls of `s.Scan()` on a scanner over `lines`:
before any scan the token is empty; after the stream is exhausted
`Scan` returns `false` and `Text` returns the empty string. -/
def scanToken (lines : List (List Char)) (k : Nat) : List Char :=
  if k = 0 then [] else lines.getD (k - 1) []

/-- Function `answerForDay` (part_000 lines 280–291): scan `day + 1` lines of the
embedded answers file (`for i := 0; i <= day; i++ \x7b s.Scan() \x7d` —
no iterations when `day` is negative) and uppercase the last token. -/
def answerForDay (file : List Char) (day : Int) : List Char :=
  (scanToken (splitLines file) (if day < 0 then 0 else day.toNat + 1)).map toUpperChar

/-- An answers file in the fixed-width encoding of spec §6: each record
is its 5-byte answer followed by a 2-byte CRLF line ending, 7 bytes in
all. -/
def encodeAnswers (recs : List (List Char)) : List Char :=
  (recs.map (fun r => r ++ ['\x0d', '\n'])).flatten

/-- Black square glyph (part_000 line 18). -/
def blackSquare : String := "⬛"

/-- Yellow square glyph (part_000 line 19). -/
def yellowSquare : String := "🟨"

/-- Green square glyph (part_000 line 20). -/
def greenSquare : String := "🟩"

/-- One board position (part_000 lines 55–58). -/
structure Cell where
  color : String
  letter : String
deriving DecidableEq, Repr

/-- The accumulated hints (part_000 lines 37–40): `yellow` models the Go
`map[rune]bool` as the list of letters inserted so far, `green` the
`[5]rune` array with the zero rune marking unset slots. -/
structure Hints where
  yellow : List Char
  green : List Char
deriving DecidableEq, Repr

/-- The zero value of Go's `rune` type, the unset marker compared
against in `checkHints` (`var emptyRune rune`, part_000 line 182). -/
def emptyRune : Char := Char.ofNat 0

/-- The game state (part_000 lines 42–53).  The dictionary loaded from
`guesses.txt` is carried as the list of its uppercased words. -/
structure Game where
  day : Int
  currentTurn : Int
  turnsRemaining : Int
  complete : Bool
  won : Bool
  answer : List Char
  validGuesses : List (List Char)
  hardMode : Bool
  hints : Hints
  board : List (List Cell)
deriving DecidableEq, Repr

/-- Constructor `newGame` (part_000 lines 143–169); the embedded `answers.txt` and
`guesses.txt` contents are passed explicitly instead of read from the
embedded file system. -/
def newGame (answersFile : List Char) (dict : List (List Char))
    (day : Int) (hardmode : Bool) : Game :=
  { day := day
    currentTurn := 0
    turnsRemaining := 6
    complete := false
    won := false
    hardMode := hardmode
    hints := { yellow := [], green := List.replicate 5 emptyRune }
    answer := answerForDay answersFile day
    validGuesses := dict
    board := List.replicate 6 (List.replicate 5 { color := blackSquare, letter := "_" }) }

/-- The two hard-mode rejection reasons of `game.checkHints` (part_000
lines 171–190). -/
inductive HintError where
  | missingRequiredLetter (c : Char)
  | wrongFixedPosition (i : Nat) (c : Char)
deriving DecidableEq, Repr

/-- The yellow-letter loop of `checkHints` (part_000 lines 174–179): the
first remembered yellow letter (in the model list's order; the Go map's
iteration order is unspecified) that the guess does not contain. -/
def findMissingYellow (yellow guess : List Char) : Option Char :=
  yellow.find? (fun c => ! guess.contains c)

/-- The green-hint loop of `checkHints` (part_000 lines 181–187): the
first position whose green hint is set and differs from the guess
letter there. -/
def findGreenMismatch : Nat → List Char → List Char → Option (Nat × Char)
  | i, h :: hs, c :: cs =>
      if h ≠ emptyRune ∧ h ≠ c then some (i, h)
      else findGreenMismatch (i + 1) hs cs
  | _, _, _ => none

/-- Method `game.checkHints` (part_000 lines 171–190): yellow letters must be
present somewhere in the guess, then green letters must be used in the
correct places. -/
def checkHints (g : Game) (guess : List Char) : Option HintError :=
  match findMissingYellow g.hints.yellow guess with
  | some c => some (HintError.missingRequiredLetter c)
  | none =>
    match findGreenMismatch 0 g.hints.green guess with
    | some ih => some (HintError.wrongFixedPosition ih.1 ih.2)
    | none => none

/-- The board-row rewrite of `game.addGuess`: every cell receives the
guess letter (pass 1, line 209); matched cells turn green (line 206),
yellow-budgeted cells turn yellow (line 215), and the remaining cells
keep their colour (the initial black). -/
def updateRow : List Cell → List Char → List EvalColor → List Cell
  | cl :: cls, c :: cs, e :: es =>
      { color := match e with
          | EvalColor.correct => greenSquare
          | EvalColor.present => yellowSquare
          | EvalColor.absent => cl.color
        letter := String.mk [c] } :: updateRow cls cs es
  | cls, _, _ => cls

/-- The green-hint update of pass 1 (part_000 line 207):
`g.hints.green[i] = r` at every matched position. -/
def updateGreen : List Char → List Char → List EvalColor → List Char
  | h :: hs, c :: cs, e :: es =>
      (if e = EvalColor.correct then c else h) :: updateGreen hs cs es
  | hs, _, _ => hs

/-- The yellow-hint update of pass 2 (part_000 line 217):
`g.hints.yellow[r] = true` for every yellow-marked letter, modelled as
set insertion into the list. -/
def updateYellow : List Char → List Char → List EvalColor → List Char
  | ys, c :: cs, e :: es =>
      updateYellow
        (if e = EvalColor.present ∧ ! ys.contains c then ys ++ [c] else ys) cs es
  | ys, _, _ => ys

/-- Method `game.addGuess` (part_000 lines 192–228): colour the current board
row and update the hints (the colours are exactly `evaluate`, i.e.
pass 1 and pass 2 of the source), then decrement `turnsRemaining`,
increment `currentTurn`, and latch `complete` and `won`.  This total
model is exact when the guess is no longer than the answer (always the
case for a 5-letter guess against a 5-letter answer); when the answer
is shorter, the Go code panics on `g.answer[i]` instead —
`addGuessChecked` below includes that bounds check. -/
def addGuess (g : Game) (guess : List Char) : Game :=
  let ev := evaluate guess g.answer
  let tr := g.turnsRemaining - 1
  { g with
    board := g.board.set g.currentTurn.toNat
      (updateRow (g.board.getD g.currentTurn.toNat []) guess ev)
    hints := { yellow := updateYellow g.hints.yellow guess ev
               green := updateGreen g.hints.green guess ev }
    turnsRemaining := tr
    currentTurn := g.currentTurn + 1
    complete := if guess = g.answer ∨ tr = 0 then true else g.complete
    won := if guess = g.answer then true else g.won }

/-- Outcome of one line of input in the main loop (part_000 lines
75–94). -/
inductive SubmitResult where
  | invalidFormat
  | notInDictionary
  | hardModeRejected (e : HintError)
  | accepted
deriving DecidableEq, Repr

/-- The format check `^[A-Za-z]\x7b5\x7d$` (part_000 line 34), applied
to the normalized guess. -/
def validFormat (s : List Char) : Bool :=
  s.length = 5 && s.all (fun c => ('A' ≤ c ∧ c ≤ 'Z') ∨ ('a' ≤ c ∧ c ≤ 'z'))

/-- One iteration of the main loop body (part_000 lines 75–94):
normalize the line (`ToUpper(TrimSpace(...))`), reject on format,
dictionary membership or (in hard mode) hint validation — each
rejection prints and `continue`s, leaving the game untouched — and
otherwise accept the guess via `addGuess`. -/
def submitGuess (g : Game) (input : List Char) : Game × SubmitResult :=
  let guess := (trimSpace input).map toUpperChar
  if ! validFormat guess then (g, SubmitResult.invalidFormat)
  else if ! g.validGuesses.contains guess then (g, SubmitResult.notInDictionary)
  else if g.hardMode then
    match checkHints g guess with
    | some e => (g, SubmitResult.hardModeRejected e)
    | none => (addGuess g guess, SubmitResult.accepted)
  else (addGuess g guess, SubmitResult.accepted)

/-- One observable step of a session: the loop guard
`for !g.complete && s.Scan()` (part_000 line 75) processes a line only
while the game is incomplete. -/
def step (g : Game) (input : List Char) : Game :=
  if g.complete then g else (submitGuess g input).1

/-- The game states reachable in a session: a fresh `newGame` and
anything obtained from a reachable state by one line of input. -/
inductive Reachable : Game → Prop
  | init (answersFile : List Char) (dict : List (List Char))
      (day : Int) (hardmode : Bool) :
      Reachable (newGame answersFile dict day hardmode)
  | next (g : Game) (input : List Char) :
      Reachable g → Reachable (step g input)

/-- The turn-counter invariant of claim C9, strengthened with the facts
needed for its preservation: while the game is incomplete, at least one
turn remains. -/
def GameInv (g : Game) : Prop :=
  g.currentTurn + g.turnsRemaining = 6 ∧ 0 ≤ g.currentTurn
    ∧ 0 ≤ g.turnsRemaining ∧ (g.complete = false → 0 < g.turnsRemaining)

/-- A concrete answers file (answers "CRANE" and "ALLOT") for witness
instantiations. -/
def sampleAnswersFile : List Char :=
  encodeAnswers [['C','R','A','N','E'], ['A','L','L','O','T']]

/-- A concrete dictionary for witness instantiations. -/
def sampleDict : List (List Char) :=
  [['C','R','A','N','E'], ['A','U','D','I','O'], ['T','R','A','C','E'],
   ['S','L','A','T','E'], ['L','L','A','M','A'], ['A','L','L','O','T']]

/-- A concrete fresh game (day 0, answer "CRANE", normal mode). -/
def sampleGame : Game := newGame sampleAnswersFile sampleDict 0 false

/-- A concrete hard-mode game that already holds hints: yellow 'A' and
green 'C' at position 0. -/
def hardGame : Game :=
  { newGame sampleAnswersFile sampleDict 0 true with
    hints := { yellow := ['A'], green := ['C', emptyRune, emptyRune, emptyRune, emptyRune] } }

/-- Six copies of a wrong guess, for the lost-game witness. -/
def sixGuesses : List (List Char) := List.replicate 6 ['A','U','D','I','O']

/-- Pass 1 of `game.addGuess` with Go's bounds-checked indexing: the
expression `g.answer[i]` (part_000 line 204) panics with index out of
range when the guess is longer than the answer; `none` models that
panic. -/
def pass1Checked : List Char → List Char → (Char → Int) → Option (Char → Int)
  | [], _, freq => some freq
  | g :: gs, a :: as, freq =>
      if g = a then pass1Checked gs as (decr freq g) else pass1Checked gs as freq
  | _ :: _, [], _ => none

/-- Pass 2 of `game.addGuess` with the same bounds-checked indexing of
`g.answer[i]` (part_000 line 213). -/
def pass2Checked (answer : List Char) :
    List Char → List Char → (Char → Int) → Option (List EvalColor)
  | [], _, _ => some []
  | g :: gs, a :: as, freq =>
      if g = a then
        (pass2Checked answer gs as freq).map (fun l => EvalColor.correct :: l)
      else if answer.contains g ∧ 0 < freq g then
        (pass2Checked answer gs as (decr freq g)).map (fun l => EvalColor.present :: l)
      else
        (pass2Checked answer gs as freq).map (fun l => EvalColor.absent :: l)
  | _ :: _, [], _ => none

/-- The guess evaluation of `game.addGuess` including its panic
behaviour: `none` when either pass indexes past the end of the
answer. -/
def evaluateChecked (guess answer : List Char) : Option (List EvalColor) :=
  match pass1Checked guess answer (initFreq answer) with
  | none => none
  | some freq => pass2Checked answer guess answer freq

/-- Method `game.addGuess` including Go's bounds check: `none` is the
index-out-of-range panic raised when the answer is shorter than the
guess (as happens with the empty answer of an out-of-range day); when
no panic occurs the update is exactly `addGuess`. -/
def addGuessChecked (g : Game) (guess : List Char) : Option Game :=
  match evaluateChecked guess g.answer with
  | none => none
  | some _ => some (addGuess g guess)

section EvaluatorLemmas

theorem pass1_cons (g a : Char) (gs as : List Char) (freq : Char → Int) :
    pass1 (g :: gs) (a :: as) freq
      = if g = a then pass1 gs as (decr freq g) else pass1 gs as freq := rfl

theorem pass1_nil_right (g : Char) (gs : List Char) (freq : Char → Int) :
    pass1 (g :: gs) [] freq = freq := rfl

theorem pass2_cons (answer : List Char) (g a : Char) (gs as : List Char) (freq : Char → Int) :
    pass2 answer (g :: gs) (a :: as) freq
      = if g = a then EvalColor.correct :: pass2 answer gs as freq
        else if answer.contains g ∧ 0 < freq g then
          EvalColor.present :: pass2 answer gs as (decr freq g)
        else EvalColor.absent :: pass2 answer gs as freq := rfl

theorem pass2_nil_right (answer : List Char) (g : Char) (gs : List Char) (freq : Char → Int) :
    pass2 answer (g :: gs) [] freq = [] := rfl

theorem matchCount_cons (g a c : Char) (gs as : List Char) :
    matchCount (g :: gs) (a :: as) c
      = (if g = a ∧ g = c then 1 else 0) + matchCount gs as c := rfl

theorem matchCount_nil_right (g c : Char) (gs : List Char) :
    matchCount (g :: gs) [] c = 0 := rfl

theorem colorCount_cons (g c : Char) (gs : List Char) (e : EvalColor)
    (es : List EvalColor) (col : EvalColor) :
    colorCount (g :: gs) (e :: es) col c
      = (if g = c ∧ e = col then 1 else 0) + colorCount gs es col c := rfl

theorem colorCount_nil_right (g c : Char) (gs : List Char) (col : EvalColor) :
    colorCount (g :: gs) [] col c = 0 := rfl

theorem decr_self (freq : Char → Int) (c : Char) : decr freq c c = freq c - 1 := by
  simp [decr]

theorem decr_other (freq : Char → Int) {c d : Char} (h : ¬ d = c) :
    decr freq c d = freq d := by
  simp [decr, h]

theorem pass1_apply (gs : List Char) : ∀ (as : List Char) (freq : Char → Int) (c : Char),
    pass1 gs as freq c = freq c - (matchCount gs as c : Int) := by
  induction gs with
  | nil => intro as freq c; cases as <;> simp [pass1, matchCount]
  | cons g gs ih =>
    intro as freq c
    cases as with
    | nil => rw [pass1_nil_right, matchCount_nil_right]; simp
    | cons a as =>
      rw [pass1_cons, matchCount_cons]
      by_cases hga : g = a
      · rw [if_pos hga]
        by_cases hgc : g = c
        · rw [if_pos ⟨hga, hgc⟩, ih as (decr freq g) c]
          subst hgc
          rw [decr_self]
          push_cast
          ring
        · rw [if_neg (fun h => hgc h.2), ih as (decr freq g) c,
            decr_other freq (fun h : c = g => hgc h.symm)]
          push_cast
          ring
      · rw [if_neg hga, if_neg (fun h => hga h.1), ih as freq c]
        push_cast
        ring

theorem pass2_correct_count (answer : List Char) (gs : List Char) :
    ∀ (as : List Char) (freq : Char → Int) (c : Char),
    colorCount gs (pass2 answer gs as freq) EvalColor.correct c = matchCount gs as c := by
  induction gs with
  | nil => intro as freq c; cases as <;> rfl
  | cons g gs ih =>
    intro as freq c
    cases as with
    | nil => rfl
    | cons a as =>
      rw [pass2_cons, matchCount_cons]
      by_cases hga : g = a
      · rw [if_pos hga, colorCount_cons, ih as freq c]
        by_cases hgc : g = c
        · rw [if_pos ⟨hgc, rfl⟩, if_pos ⟨hga, hgc⟩]
        · rw [if_neg (fun h => hgc h.1), if_neg (fun h => hgc h.2)]
      · rw [if_neg hga]
        by_cases hpr : answer.contains g ∧ 0 < freq g
        · rw [if_pos hpr, colorCount_cons, ih as (decr freq g) c,
            if_neg (fun h => EvalColor.noConfusion h.2),
            if_neg (fun h => hga h.1)]
        · rw [if_neg hpr, colorCount_cons, ih as freq c,
            if_neg (fun h => EvalColor.noConfusion h.2),
            if_neg (fun h => hga h.1)]

theorem pass2_present_le (answer : List Char) (gs : List Char) :
    ∀ (as : List Char) (freq : Char → Int) (c : Char),
    (colorCount gs (pass2 answer gs as freq) EvalColor.present c : Int) ≤ max (freq c) 0 := by
  induction gs with
  | nil =>
    intro as freq c
    cases as <;> simp [pass2, colorCount, le_max_iff]
  | cons g gs ih =>
    intro as freq c
    cases as with
    | nil => rw [pass2_nil_right, colorCount_nil_right]; simp [le_max_iff]
    | cons a as =>
      rw [pass2_cons]
      by_cases hga : g = a
      · rw [if_pos hga, colorCount_cons,
          if_neg (fun h => EvalColor.noConfusion h.2)]
        have hrec := ih as freq c
        push_cast
        omega
      · rw [if_neg hga]
        by_cases hpr : answer.contains g ∧ 0 < freq g
        · rw [if_pos hpr, colorCount_cons]
          by_cases hgc : g = c
          · rw [if_pos ⟨hgc, rfl⟩]
            have hrec := ih as (decr freq g) c
            subst hgc
            rw [decr_self] at hrec
            have hfr : 0 < freq g := hpr.2
            push_cast
            omega
          · rw [if_neg (fun h => hgc h.1)]
            have hrec := ih as (decr freq g) c
            rw [decr_other freq (fun h : c = g => hgc h.symm)] at hrec
            push_cast
            omega
        · rw [if_neg hpr, colorCount_cons,
            if_neg (fun h => EvalColor.noConfusion h.2)]
          have hrec := ih as freq c
          push_cast
          omega

theorem matchCount_le_count (gs : List Char) :
    ∀ (as : List Char) (c : Char), matchCount gs as c ≤ as.count c := by
  induction gs with
  | nil => intro as c; cases as <;> simp [matchCount]
  | cons g gs ih =>
    intro as c
    cases as with
    | nil => rw [matchCount_nil_right]; exact Nat.zero_le _
    | cons a as =>
      have hc : (a :: as).count c = (if a = c then 1 else 0) + as.count c := by
        simp only [List.count_cons, beq_iff_eq]
        exact Nat.add_comm _ _
      rw [matchCount_cons, hc]
      have hih := ih as c
      by_cases h : g = a ∧ g = c
      · rw [if_pos h, if_pos (show a = c by rw [← h.1]; exact h.2)]
        omega
      · rw [if_neg h]
        split <;> omega

end EvaluatorLemmas

/-- Claim C1 (amended): the evaluation computed by `game.addGuess` in
`src/unnamed/part_000` follows the two-pass duplicate-letter rule: for
every letter, the number of positions marked `correct` or `present`
never exceeds that letter's frequency in the answer, every position where
guess and answer agree is marked `correct` (so `correct` matches consume
the shared budget first), and `present` markings only get the budget the
`correct` markings left over. -/
theorem c1_duplicate_letter_rule (guess answer : List Char) (c : Char) :
    colorCount guess (evaluate guess answer) EvalColor.correct c
        + colorCount guess (evaluate guess answer) EvalColor.present c
      ≤ answer.count c
    ∧ colorCount guess (evaluate guess answer) EvalColor.correct c
        = matchCount guess answer c
    ∧ colorCount guess (evaluate guess answer) EvalColor.present c
        ≤ answer.count c - matchCount guess answer c := by
  have h1 := pass1_apply guess answer (initFreq answer) c
  have h2 := pass2_correct_count answer guess answer (pass1 guess answer (initFreq answer)) c
  have h3 := pass2_present_le answer guess answer (pass1 guess answer (initFreq answer)) c
  have h4 := matchCount_le_count guess answer c
  rw [h1] at h3
  have hif : initFreq answer c = (answer.count c : Int) := rfl
  rw [hif] at h3
  unfold evaluate
  refine ⟨?_, h2, ?_⟩ <;> omega

/-- Claim C1, counterexample to the claim as stated: the evaluation of
`board.addGuess` in `src/termle.go` violates the duplicate-letter budget:
for answer "ALLOT" and guess "LLAMA" the letter 'A' is marked `present`
twice although it occurs only once in the answer. -/
theorem c1_counterexample :
    ¬ (colorCount ['L', 'L', 'A', 'M', 'A']
          (TermleGo.evalRow ['L', 'L', 'A', 'M', 'A'] ['A', 'L', 'L', 'O', 'T'])
          EvalColor.correct 'A'
        + colorCount ['L', 'L', 'A', 'M', 'A']
          (TermleGo.evalRow ['L', 'L', 'A', 'M', 'A'] ['A', 'L', 'L', 'O', 'T'])
          EvalColor.present 'A'
      ≤ (['A', 'L', 'L', 'O', 'T'] : List Char).count 'A') := by
  decide

/-- Claim C2, counterexample to the claim as stated: for answer "CRANE"
and guess "TRACE" the evaluation is NOT
[absent, correct, present, present, correct] — position 2 holds 'A' in
both words, so it is marked `correct`, not `present`. -/
theorem c2_counterexample :
    evaluate ['T', 'R', 'A', 'C', 'E'] ['C', 'R', 'A', 'N', 'E']
      ≠ [EvalColor.absent, EvalColor.correct, EvalColor.present,
         EvalColor.present, EvalColor.correct] := by
  decide

/-- Claim C2 (amended): for answer "CRANE" and guess "TRACE" the
evaluation equals [absent, correct, correct, present, correct]
(T absent; R correct; A matches position 2 so correct; C present
elsewhere; E correct). -/
theorem c2_crane_trace :
    evaluate ['T', 'R', 'A', 'C', 'E'] ['C', 'R', 'A', 'N', 'E']
      = [EvalColor.absent, EvalColor.correct, EvalColor.correct,
         EvalColor.present, EvalColor.correct] := by
  decide

section SelfGuess

theorem pass2_diag (answer : List Char) (as : List Char) :
    ∀ freq : Char → Int, pass2 answer as as freq = List.replicate as.length EvalColor.correct := by
  induction as with
  | nil => intro freq; simp [pass2]
  | cons a as ih => intro freq; simp [pass2, List.replicate, ih]

theorem addGuessRow_diag (answer : List Char) (as : List Char) :
    TermleGo.addGuessRow answer as as = List.replicate as.length EvalColor.correct := by
  induction as with
  | nil => simp [TermleGo.addGuessRow]
  | cons a as ih => simp [TermleGo.addGuessRow, List.replicate, ih]

end SelfGuess

/-- Claim C8: for every guess equal to the answer, the evaluation marks
all positions `correct` — both in `game.addGuess` (part_000) and
`board.addGuess` (termle.go). -/
theorem c8_equal_guess_all_correct (answer : List Char) :
    evaluate answer answer = List.replicate answer.length EvalColor.correct
    ∧ TermleGo.evalRow answer answer = List.replicate answer.length EvalColor.correct := by
  exact ⟨pass2_diag answer answer _, addGuessRow_diag answer answer⟩

section DayLemmas

theorem daysSinceFirstWordle_eq (d : Int) : daysSinceFirstWordle d = d :=
  Int.mul_tdiv_cancel_left d (by norm_num)

end DayLemmas

/-- Claim C3 (amended): `daysSinceFirstWordle` (part_000) recovers the
exact whole-day difference between the current date's UTC midnight and
the first day's UTC midnight, so a session on 2021-06-20 yields day 1;
but `currentDay` in termle.go subtracts an extra 1, so it yields day 0
at every instant of 2021-06-20. -/
theorem c3_day_selection :
    (∀ d : Int, daysSinceFirstWordle d = d)
    ∧ daysSinceFirstWordle 1 = 1
    ∧ (∀ s : Nat, 86400 ≤ s → s < 172800 → TermleGo.currentDay s = 0) := by
  refine ⟨daysSinceFirstWordle_eq, daysSinceFirstWordle_eq 1, ?_⟩
  intro s h1 h2
  unfold TermleGo.currentDay
  have hq : s / 86400 = 1 := by omega
  rw [hq]
  decide

/-- Claim C3, counterexample to the claim as stated: at
2021-06-20T01:00:00Z (90000 seconds after the first day's midnight),
`currentDay` in termle.go computes day 0, not day 1. -/
theorem c3_counterexample :
    TermleGo.currentDay 90000 = 0 ∧ ¬ TermleGo.currentDay 90000 = 1 := by
  decide

/-- Claim C3, witness: the corrected theorem applied at the concrete
instant 2021-06-20T01:00:00Z. -/
theorem c3_witness : TermleGo.currentDay 90000 = 0 :=
  c3_day_selection.2.2 90000 (by norm_num) (by norm_num)

section AnswerStoreLemmas

theorem splitLinesAux_cons (acc : List Char) (c : Char) (cs : List Char) :
    splitLinesAux acc (c :: cs)
      = if c = '\n' then dropCR acc.reverse :: splitLinesAux [] cs
        else splitLinesAux (c :: acc) cs := rfl

theorem dropCR_concat (l : List Char) : dropCR (l ++ ['\x0d']) = l := by
  simp [dropCR, List.getLast?_concat, List.dropLast_concat]

theorem splitLinesAux_line (r : List Char) : ∀ (acc rest : List Char), '\n' ∉ r →
    splitLinesAux acc (r ++ '\n' :: rest)
      = dropCR (acc.reverse ++ r) :: splitLinesAux [] rest := by
  induction r with
  | nil =>
    intro acc rest _
    rw [List.nil_append, splitLinesAux_cons, if_pos rfl, List.append_nil]
  | cons c r ih =>
    intro acc rest hn
    have hc : ¬ c = '\n' := by
      intro h
      subst h
      exact hn (List.mem_cons_self _ _)
    have hn' : '\n' ∉ r := fun h => hn (List.mem_cons_of_mem c h)
    rw [List.cons_append, splitLinesAux_cons, if_neg hc, ih (c :: acc) rest hn']
    have hrev : (c :: acc).reverse ++ r = acc.reverse ++ c :: r := by simp
    rw [hrev]

theorem splitLines_encode (recs : List (List Char)) :
    (∀ r ∈ recs, '\n' ∉ r) → splitLines (encodeAnswers recs) = recs := by
  induction recs with
  | nil => intro _; rfl
  | cons r rest ih =>
    intro h
    have hr : '\n' ∉ r := h r (List.mem_cons_self _ _)
    have hrest : ∀ x ∈ rest, '\n' ∉ x := fun x hx => h x (List.mem_cons_of_mem _ hx)
    have henc : encodeAnswers (r :: rest)
        = (r ++ ['\x0d']) ++ '\n' :: encodeAnswers rest := by
      simp [encodeAnswers, List.append_assoc]
    have hnr : '\n' ∉ r ++ ['\x0d'] := by
      intro hmem
      rcases List.mem_append.mp hmem with h1 | h2
      · exact hr h1
      · exact absurd (List.mem_singleton.mp h2) (by decide)
    unfold splitLines
    rw [henc, splitLinesAux_line (r ++ ['\x0d']) [] (encodeAnswers rest) hnr]
    simp only [List.reverse_nil, List.nil_append]
    rw [dropCR_concat]
    exact congrArg (List.cons r) (ih hrest)

theorem encode_drop_take (recs : List (List Char)) : ∀ (day : Nat),
    (∀ r ∈ recs, r.length = 5) → day < recs.length →
    ((encodeAnswers recs).drop (day * 7)).take 5 = recs.getD day [] := by
  induction recs with
  | nil => intro day _ h; exact absurd h (by simp)
  | cons r rest ih =>
    intro day hlen hday
    have hr : r.length = 5 := hlen r (List.mem_cons_self _ _)
    have hjoin : encodeAnswers (r :: rest)
        = (r ++ ['\x0d', '\n']) ++ encodeAnswers rest := by
      simp [encodeAnswers]
    cases day with
    | zero =>
      rw [hjoin]
      simp only [Nat.zero_mul, List.drop_zero]
      rw [List.append_assoc, List.take_left' hr]
      rfl
    | succ d =>
      rw [hjoin]
      have h7 : (r ++ ['\x0d', '\n']).length = 7 := by simp [hr]
      have hmul : (d + 1) * 7 = 7 + d * 7 := by ring
      rw [hmul, ← List.drop_drop, List.drop_left' h7]
      exact ih d (fun x hx => hlen x (List.mem_cons_of_mem _ hx)) (by simpa using hday)

theorem scanToken_succ (lines : List (List Char)) (day : Nat) :
    scanToken lines (day + 1) = lines.getD day [] := by
  simp [scanToken]

end AnswerStoreLemmas

/-- Claim C7: on an answers file in the fixed-width encoding of spec §6
(5-byte answers, 2-byte CRLF line endings), the byte-seeking
`answerForDay` of termle.go and the line-scanning `answerForDay` of
part_000 produce the same answer for every day index within the list. -/
theorem c7_answer_store_equivalence (recs : List (List Char)) (day : Nat)
    (hrec : ∀ r ∈ recs, r.length = 5 ∧ '\n' ∉ r) (hday : day < recs.length) :
    TermleGo.answerForDay (encodeAnswers recs) day
      = answerForDay (encodeAnswers recs) (day : Int) := by
  unfold TermleGo.answerForDay answerForDay
  rw [encode_drop_take recs day (fun r hr => (hrec r hr).1) hday]
  rw [splitLines_encode recs (fun r hr => (hrec r hr).2)]
  rw [if_neg (by omega : ¬ ((day : Int) < 0))]
  rw [show ((day : Int)).toNat = day from Int.toNat_natCast day]
  rw [scanToken_succ]

/-- Claim C7, witness: both answer stores agree on day 1 of a concrete
two-answer file. -/
theorem c7_witness :
    TermleGo.answerForDay
        (encodeAnswers [['C','R','A','N','E'], ['A','L','L','O','T']]) 1
      = answerForDay
        (encodeAnswers [['C','R','A','N','E'], ['A','L','L','O','T']]) ((1 : Nat) : Int) :=
  c7_answer_store_equivalence [['C','R','A','N','E'], ['A','L','L','O','T']] 1
    (by decide) (by decide)

section StateMachineLemmas

theorem addGuess_won (g : Game) (guess : List Char) :
    (addGuess g guess).won = (if guess = g.answer then true else g.won) := rfl

theorem addGuess_complete (g : Game) (guess : List Char) :
    (addGuess g guess).complete
      = (if guess = g.answer ∨ g.turnsRemaining - 1 = 0 then true else g.complete) := rfl

theorem addGuess_turnsRemaining (g : Game) (guess : List Char) :
    (addGuess g guess).turnsRemaining = g.turnsRemaining - 1 := rfl

theorem addGuess_currentTurn (g : Game) (guess : List Char) :
    (addGuess g guess).currentTurn = g.currentTurn + 1 := rfl

theorem addGuess_answer (g : Game) (guess : List Char) :
    (addGuess g guess).answer = g.answer := rfl

theorem submitGuess_spec (g : Game) (input : List Char) :
    ((submitGuess g input).1 = g ∧ (submitGuess g input).2 ≠ SubmitResult.accepted)
    ∨ ((submitGuess g input).1 = addGuess g ((trimSpace input).map toUpperChar)
       ∧ (submitGuess g input).2 = SubmitResult.accepted
       ∧ (g.hardMode = true →
            checkHints g ((trimSpace input).map toUpperChar) = none)) := by
  simp only [submitGuess]
  split
  · exact Or.inl ⟨rfl, fun hh => SubmitResult.noConfusion hh⟩
  · split
    · exact Or.inl ⟨rfl, fun hh => SubmitResult.noConfusion hh⟩
    · split
      · split
        · exact Or.inl ⟨rfl, fun hh => SubmitResult.noConfusion hh⟩
        · rename_i heq
          exact Or.inr ⟨rfl, rfl, fun _ => heq⟩
      · rename_i hhard
        exact Or.inr ⟨rfl, rfl, fun hh => absurd hh hhard⟩

end StateMachineLemmas

/-- Claim C6: every rejected submission (invalid format, not in the
dictionary, or hard-mode validation failure) leaves `currentTurn`,
`turnsRemaining`, the board and the hints unchanged. -/
theorem c6_rejection_frame (g : Game) (input : List Char)
    (h : (submitGuess g input).2 ≠ SubmitResult.accepted) :
    (submitGuess g input).1.currentTurn = g.currentTurn
    ∧ (submitGuess g input).1.turnsRemaining = g.turnsRemaining
    ∧ (submitGuess g input).1.board = g.board
    ∧ (submitGuess g input).1.hints = g.hints := by
  rcases submitGuess_spec g input with ⟨hfst, -⟩ | ⟨-, hacc, -⟩
  · rw [hfst]
    exact ⟨rfl, rfl, rfl, rfl⟩
  · exact absurd hacc h

/-- Claim C6, witness: a malformed input line ("HI") leaves the sample
game untouched. -/
theorem c6_witness :
    (submitGuess sampleGame ['H','I']).1.currentTurn = sampleGame.currentTurn
    ∧ (submitGuess sampleGame ['H','I']).1.turnsRemaining = sampleGame.turnsRemaining
    ∧ (submitGuess sampleGame ['H','I']).1.board = sampleGame.board
    ∧ (submitGuess sampleGame ['H','I']).1.hints = sampleGame.hints :=
  c6_rejection_frame sampleGame ['H','I'] (by decide)

section CheckedLemmas

theorem pass1Checked_eq (gs : List Char) : ∀ (as : List Char) (freq : Char → Int),
    gs.length ≤ as.length → pass1Checked gs as freq = some (pass1 gs as freq) := by
  induction gs with
  | nil => intro as freq _; rfl
  | cons g gs ih =>
    intro as freq hle
    cases as with
    | nil => simp at hle
    | cons a as =>
      have hle' : gs.length ≤ as.length := by
        simp [List.length_cons] at hle
        omega
      rw [show pass1Checked (g :: gs) (a :: as) freq
            = if g = a then pass1Checked gs as (decr freq g)
              else pass1Checked gs as freq from rfl,
        pass1_cons]
      by_cases hga : g = a
      · rw [if_pos hga, if_pos hga, ih as (decr freq g) hle']
      · rw [if_neg hga, if_neg hga, ih as freq hle']

theorem pass2Checked_eq (answer : List Char) (gs : List Char) :
    ∀ (as : List Char) (freq : Char → Int), gs.length ≤ as.length →
    pass2Checked answer gs as freq = some (pass2 answer gs as freq) := by
  induction gs with
  | nil => intro as freq _; rfl
  | cons g gs ih =>
    intro as freq hle
    cases as with
    | nil => simp at hle
    | cons a as =>
      have hle' : gs.length ≤ as.length := by
        simp [List.length_cons] at hle
        omega
      rw [show pass2Checked answer (g :: gs) (a :: as) freq
            = if g = a then
                (pass2Checked answer gs as freq).map (fun l => EvalColor.correct :: l)
              else if answer.contains g ∧ 0 < freq g then
                (pass2Checked answer gs as (decr freq g)).map
                  (fun l => EvalColor.present :: l)
              else
                (pass2Checked answer gs as freq).map
                  (fun l => EvalColor.absent :: l) from rfl,
        pass2_cons]
      by_cases hga : g = a
      · rw [if_pos hga, if_pos hga, ih as freq hle']
        rfl
      · by_cases hpr : answer.contains g ∧ 0 < freq g
        · rw [if_neg hga, if_neg hga, if_pos hpr, if_pos hpr, ih as (decr freq g) hle']
          rfl
        · rw [if_neg hga, if_neg hga, if_neg hpr, if_neg hpr, ih as freq hle']
          rfl

theorem evaluateChecked_eq (guess answer : List Char)
    (h : guess.length ≤ answer.length) :
    evaluateChecked guess answer = some (evaluate guess answer) := by
  unfold evaluateChecked evaluate
  rw [pass1Checked_eq guess answer (initFreq answer) h]
  exact pass2Checked_eq answer guess answer (pass1 guess answer (initFreq answer)) h

theorem addGuessChecked_eq (g : Game) (guess : List Char)
    (h : guess.length ≤ g.answer.length) :
    addGuessChecked g guess = some (addGuess g guess) := by
  unfold addGuessChecked
  rw [evaluateChecked_eq guess g.answer h]

end CheckedLemmas

/-- Claim C10 (amended): for any day index at or past the end of the
answer list (or any negative day index), the line-scanning
`answerForDay` of part_000 returns the empty string rather than
reporting an error, so the resulting game's answer is empty; the first
accepted 5-letter guess then makes `game.addGuess` index the empty
answer out of range and panic (part_000 line 204), aborting the
session — so no guess ever wins, by abort rather than by playing out
unwinnable turns. -/
theorem c10_out_of_range_empty (file : List Char) (day : Int)
    (h : day < 0 ∨ ((splitLines file).length : Int) ≤ day) :
    answerForDay file day = []
    ∧ (∀ g : Game, g.answer = answerForDay file day →
        ∀ guess : List Char, guess.length = 5 → addGuessChecked g guess = none) := by
  have hempty : answerForDay file day = [] := by
    unfold answerForDay
    rcases h with h | h
    · rw [if_pos h]
      rfl
    · rw [if_neg (by omega)]
      have hlen : (splitLines file).length ≤ day.toNat := by omega
      rw [scanToken_succ, List.getD_eq_default _ _ hlen]
      rfl
  refine ⟨hempty, ?_⟩
  intro g hans guess hlen5
  cases guess with
  | nil => simp at hlen5
  | cons c rest =>
    have hev : evaluateChecked (c :: rest) g.answer = none := by
      rw [hans, hempty]
      rfl
    simp [addGuessChecked, hev]

/-- Claim C10, counterexample to the claim as stated: on the empty
answers file with day 5 the answer is empty, and processing the
accepted guess "AUDIO" does not leave an unwon game in play — it hits
the index-out-of-range panic of `g.answer[i]` (part_000 line 204),
modelled by `none`. -/
theorem c10_counterexample :
    addGuessChecked (newGame [] [] 5 false) ['A','U','D','I','O'] = none := by
  decide

/-- Claim C10, witness: the amended theorem applied at day 7 of the
two-answer sample file, whose answer is empty, and the accepted guess
"SLATE", which panics rather than being scored. -/
theorem c10_witness :
    answerForDay sampleAnswersFile 7 = []
    ∧ addGuessChecked (newGame sampleAnswersFile sampleDict 7 false)
        ['S','L','A','T','E'] = none := by
  have h := c10_out_of_range_empty sampleAnswersFile 7 (Or.inr (by decide))
  exact ⟨h.1,
    h.2 (newGame sampleAnswersFile sampleDict 7 false) rfl ['S','L','A','T','E'] rfl⟩

section HintLemmas

theorem findGreenMismatch_cons (i : Nat) (h c : Char) (hs cs : List Char) :
    findGreenMismatch i (h :: hs) (c :: cs)
      = if h ≠ emptyRune ∧ h ≠ c then some (i, h)
        else findGreenMismatch (i + 1) hs cs := rfl

theorem findGreenMismatch_eq_none (hs : List Char) : ∀ (i : Nat) (cs : List Char),
    (findGreenMismatch i hs cs = none ↔
      ∀ (j : Nat) (h c : Char), hs[j]? = some h → cs[j]? = some c →
        h ≠ emptyRune → h = c) := by
  induction hs with
  | nil =>
    intro i cs
    constructor
    · intro _ j h c hj1 _ _
      simp at hj1
    · intro _
      cases cs <;> rfl
  | cons h hs ih =>
    intro i cs
    cases cs with
    | nil =>
      constructor
      · intro _ j hh cc _ hj2 _
        simp at hj2
      · intro _
        rfl
    | cons c cs =>
      rw [findGreenMismatch_cons]
      by_cases hmc : h ≠ emptyRune ∧ h ≠ c
      · rw [if_pos hmc]
        constructor
        · intro hcontra
          exact Option.noConfusion hcontra
        · intro hall
          exact absurd (hall 0 h c List.getElem?_cons_zero List.getElem?_cons_zero hmc.1) hmc.2
      · rw [if_neg hmc, ih (i + 1) cs]
        constructor
        · intro hall j hh cc hj1 hj2 hne
          cases j with
          | zero =>
            rw [List.getElem?_cons_zero, Option.some.injEq] at hj1 hj2
            subst hj1
            subst hj2
            by_cases he : h = c
            · exact he
            · exact absurd ⟨hne, he⟩ hmc
          | succ j =>
            rw [List.getElem?_cons_succ] at hj1 hj2
            exact hall j hh cc hj1 hj2 hne
        · intro hall j hh cc hj1 hj2 hne
          refine hall (j + 1) hh cc ?_ ?_ hne
          · rw [List.getElem?_cons_succ]
            exact hj1
          · rw [List.getElem?_cons_succ]
            exact hj2

end HintLemmas

/-- Claim C4: in hard mode, validation of a candidate guess fails with a
missing-required-letter error if some letter in the yellow hints is
absent from the candidate; with all yellow letters present it fails
with a wrong-fixed-position error if some set green hint differs from
the candidate's letter at that position; otherwise it succeeds.  The
validation runs before the guess is scored or recorded: a hard-mode
rejection leaves the game unchanged, and an accepted guess passed
validation against the hints of strictly prior turns, being recorded
only afterwards by `addGuess`. -/
theorem c4_hard_mode_validation :
    (∀ (g : Game) (guess : List Char),
        (∃ c, c ∈ g.hints.yellow ∧ guess.contains c = false) →
        ∃ c, c ∈ g.hints.yellow ∧ guess.contains c = false ∧
          checkHints g guess = some (HintError.missingRequiredLetter c))
    ∧ (∀ (g : Game) (guess : List Char),
        (∀ c ∈ g.hints.yellow, guess.contains c = true) →
        (∃ (i : Nat) (h c : Char), g.hints.green[i]? = some h ∧ guess[i]? = some c ∧
          h ≠ emptyRune ∧ h ≠ c) →
        ∃ (j : Nat) (hj : Char),
          checkHints g guess = some (HintError.wrongFixedPosition j hj))
    ∧ (∀ (g : Game) (guess : List Char),
        (∀ c ∈ g.hints.yellow, guess.contains c = true) →
        (∀ (j : Nat) (h c : Char), g.hints.green[j]? = some h → guess[j]? = some c →
          h ≠ emptyRune → h = c) →
        checkHints g guess = none)
    ∧ (∀ (g : Game) (input : List Char) (e : HintError),
        (submitGuess g input).2 = SubmitResult.hardModeRejected e →
        (submitGuess g input).1 = g)
    ∧ (∀ (g : Game) (input : List Char),
        g.hardMode = true → (submitGuess g input).2 = SubmitResult.accepted →
        checkHints g ((trimSpace input).map toUpperChar) = none
        ∧ (submitGuess g input).1
            = addGuess g ((trimSpace input).map toUpperChar)) := by
  refine ⟨?_, ?_, ?_, ?_, ?_⟩
  · rintro g guess ⟨c, hmem, hcon⟩
    have hsome : (g.hints.yellow.find? (fun c => ! guess.contains c)).isSome := by
      rw [List.find?_isSome]
      exact ⟨c, hmem, by simpa using hcon⟩
    obtain ⟨c', hc'⟩ := Option.isSome_iff_exists.mp hsome
    have hp := List.find?_some hc'
    have hmem' := List.mem_of_find?_eq_some hc'
    have hfind : findMissingYellow g.hints.yellow guess = some c' := hc'
    refine ⟨c', hmem', by simpa using hp, by simp [checkHints, hfind]⟩
  · intro g guess hyellow hmis
    have hnone : findMissingYellow g.hints.yellow guess = none := by
      rw [findMissingYellow, List.find?_eq_none]
      intro x hx
      simpa using hyellow x hx
    obtain ⟨i, h, c, hih, hic, hne, hdiff⟩ := hmis
    cases hfg : findGreenMismatch 0 g.hints.green guess with
    | some jh =>
      exact ⟨jh.1, jh.2, by simp [checkHints, hnone, hfg]⟩
    | none =>
      rw [findGreenMismatch_eq_none g.hints.green 0 guess] at hfg
      exact absurd (hfg i h c hih hic hne) hdiff
  · intro g guess hyellow hgreen
    have hnone : findMissingYellow g.hints.yellow guess = none := by
      rw [findMissingYellow, List.find?_eq_none]
      intro x hx
      simpa using hyellow x hx
    have hfg : findGreenMismatch 0 g.hints.green guess = none := by
      rw [findGreenMismatch_eq_none]
      exact hgreen
    simp [checkHints, hnone, hfg]
  · intro g input e hrej
    rcases submitGuess_spec g input with ⟨hfst, -⟩ | ⟨-, hacc, -⟩
    · exact hfst
    · rw [hacc] at hrej
      exact SubmitResult.noConfusion hrej
  · intro g input hhard hacc2
    rcases submitGuess_spec g input with ⟨-, hne⟩ | ⟨hfst, -, hchk⟩
    · exact absurd hacc2 hne
    · exact ⟨hchk hhard, hfst⟩

/-- Claim C4, witness: the hard-mode game holding yellow hint 'A'
rejects the guess "STOMP", which lacks an 'A', with the
missing-required-letter error. -/
theorem c4_witness :
    ∃ c, c ∈ hardGame.hints.yellow
      ∧ (['S','T','O','M','P'] : List Char).contains c = false
      ∧ checkHints hardGame ['S','T','O','M','P']
          = some (HintError.missingRequiredLetter c) :=
  c4_hard_mode_validation.1 hardGame ['S','T','O','M','P'] ⟨'A', by decide, by decide⟩

section TerminalLemmas

theorem foldl_addGuess_lost (l : List (List Char)) : ∀ (g : Game),
    g.complete = false → g.won = false → g.turnsRemaining = (l.length : Int) →
    l ≠ [] → (∀ gu ∈ l, gu ≠ g.answer) →
    (l.foldl addGuess g).complete = true ∧ (l.foldl addGuess g).won = false := by
  induction l with
  | nil =>
    intro g _ _ _ hne _
    exact absurd rfl hne
  | cons gu l ih =>
    intro g hc hw htr _ hall
    have hgu : gu ≠ g.answer := hall gu (List.mem_cons_self _ _)
    rw [List.foldl_cons]
    have hw' : (addGuess g gu).won = false := by
      rw [addGuess_won, if_neg hgu]
      exact hw
    cases l with
    | nil =>
      rw [List.foldl_nil]
      refine ⟨?_, hw'⟩
      have hz : g.turnsRemaining - 1 = 0 := by
        rw [htr]
        simp
      rw [addGuess_complete, if_pos (Or.inr hz)]
    | cons gu2 l2 =>
      have hlen : g.turnsRemaining = (l2.length : Int) + 2 := by
        rw [htr]
        simp [List.length_cons]
        ring
      have hc' : (addGuess g gu).complete = false := by
        rw [addGuess_complete, if_neg, hc]
        rintro (h1 | h2)
        · exact hgu h1
        · omega
      refine ih (addGuess g gu) hc' hw' ?_ (by simp) ?_
      · rw [addGuess_turnsRemaining, hlen]
        simp [List.length_cons]
        ring
      · intro x hx
        rw [addGuess_answer]
        exact hall x (List.mem_cons_of_mem _ hx)

end TerminalLemmas

/-- Claim C5: exactly six accepted guesses, none equal to the answer,
put the game in the Lost terminal state (`complete` true, `won` false);
an accepted guess equal to the answer on turn k (1-indexed, i.e. with
`currentTurn = k - 1` before the guess) puts the game in the Won state
with recorded turn count `currentTurn = k`; and once a terminal state
is reached, the loop guard processes no further input. -/
theorem c5_terminal_states :
    (∀ (g : Game) (l : List (List Char)),
        l.length = 6 → g.complete = false → g.won = false → g.turnsRemaining = 6 →
        (∀ gu ∈ l, gu ≠ g.answer) →
        (l.foldl addGuess g).complete = true ∧ (l.foldl addGuess g).won = false)
    ∧ (∀ (g : Game) (guess : List Char) (k : Int),
        g.currentTurn = k - 1 → guess = g.answer →
        (addGuess g guess).won = true ∧ (addGuess g guess).complete = true
          ∧ (addGuess g guess).currentTurn = k)
    ∧ (∀ (g : Game) (input : List Char), g.complete = true → step g input = g) := by
  refine ⟨?_, ?_, ?_⟩
  · intro g l hlen hc hw htr hall
    have hne : l ≠ [] := by
      intro hh
      rw [hh] at hlen
      simp at hlen
    refine foldl_addGuess_lost l g hc hw ?_ hne hall
    rw [htr, hlen]
    norm_num
  · intro g guess k hct hgu
    refine ⟨?_, ?_, ?_⟩
    · rw [addGuess_won, if_pos hgu]
    · rw [addGuess_complete, if_pos (Or.inl hgu)]
    · rw [addGuess_currentTurn, hct]
      ring
  · intro g input hc
    unfold step
    rw [if_pos hc]

/-- Claim C5, witness: six wrong guesses lose the sample game; guessing
the answer "CRANE" on turn 1 wins it with recorded turn count 1; and a
completed game ignores further input. -/
theorem c5_witness :
    ((sixGuesses.foldl addGuess sampleGame).complete = true
      ∧ (sixGuesses.foldl addGuess sampleGame).won = false)
    ∧ ((addGuess sampleGame ['C','R','A','N','E']).won = true
      ∧ (addGuess sampleGame ['C','R','A','N','E']).complete = true
      ∧ (addGuess sampleGame ['C','R','A','N','E']).currentTurn = 1)
    ∧ step (addGuess sampleGame ['C','R','A','N','E']) ['S','L','A','T','E']
        = addGuess sampleGame ['C','R','A','N','E'] := by
  refine ⟨?_, ?_, ?_⟩
  · exact c5_terminal_states.1 sampleGame sixGuesses (by decide) (by decide) (by decide)
      (by decide) (by decide)
  · exact c5_terminal_states.2.1 sampleGame ['C','R','A','N','E'] 1 (by decide) (by decide)
  · exact c5_terminal_states.2.2 (addGuess sampleGame ['C','R','A','N','E'])
      ['S','L','A','T','E'] (by decide)

section InvariantLemmas

theorem gameInv_newGame (answersFile : List Char) (dict : List (List Char))
    (day : Int) (hardmode : Bool) :
    GameInv (newGame answersFile dict day hardmode) := by
  refine ⟨rfl, le_refl 0, ?_, fun _ => ?_⟩
  · show (0 : Int) ≤ 6
    norm_num
  · show (0 : Int) < 6
    norm_num

theorem gameInv_addGuess (g : Game) (guess : List Char)
    (hinv : GameInv g) (hc : g.complete = false) : GameInv (addGuess g guess) := by
  obtain ⟨h1, h2, h3, h4⟩ := hinv
  have htr := h4 hc
  refine ⟨?_, ?_, ?_, ?_⟩
  · rw [addGuess_currentTurn, addGuess_turnsRemaining]
    omega
  · rw [addGuess_currentTurn]
    omega
  · rw [addGuess_turnsRemaining]
    omega
  · intro hcomp
    rw [addGuess_complete] at hcomp
    rw [addGuess_turnsRemaining]
    by_cases hz : g.turnsRemaining - 1 = 0
    · rw [if_pos (Or.inr hz)] at hcomp
      exact absurd hcomp (by simp)
    · omega

theorem gameInv_step (g : Game) (input : List Char) (hinv : GameInv g) :
    GameInv (step g input) := by
  unfold step
  by_cases hc : g.complete = true
  · rw [if_pos hc]
    exact hinv
  · rw [if_neg hc]
    rcases submitGuess_spec g input with ⟨hfst, -⟩ | ⟨hfst, -, -⟩
    · rw [hfst]
      exact hinv
    · rw [hfst]
      exact gameInv_addGuess g _ hinv (by simpa using hc)

theorem reachable_gameInv (g : Game) (h : Reachable g) : GameInv g := by
  induction h with
  | init answersFile dict day hardmode => exact gameInv_newGame answersFile dict day hardmode
  | next g input _ ih => exact gameInv_step g input ih

end InvariantLemmas

/-- Claim C9: in every reachable game state,
`currentTurn + turnsRemaining = 6` and `0 ≤ currentTurn ≤ 6`; the
invariant holds at construction and is preserved by every processed
input line, accepted or rejected. -/
theorem c9_turn_invariant (g : Game) (h : Reachable g) :
    g.currentTurn + g.turnsRemaining = 6
    ∧ 0 ≤ g.currentTurn ∧ g.currentTurn ≤ 6 := by
  obtain ⟨h1, h2, h3, -⟩ := reachable_gameInv g h
  exact ⟨h1, h2, by omega⟩

/-- Claim C9, witness: the invariant instantiated at the freshly
constructed sample game. -/
theorem c9_witness :
    (newGame sampleAnswersFile sampleDict 0 false).currentTurn
        + (newGame sampleAnswersFile sampleDict 0 false).turnsRemaining = 6
    ∧ 0 ≤ (newGame sampleAnswersFile sampleDict 0 false).currentTurn
    ∧ (newGame sampleAnswersFile sampleDict 0 false).currentTurn ≤ 6 :=
  c9_turn_invariant (newGame sampleAnswersFile sampleDict 0 false)
    (Reachable.init sampleAnswersFile sampleDict 0 false)
